import Mathlib

/-
Verification of the log-to-timeline reconstruction and statistical
aggregation pipeline of the DocumentDB log-parsing scripts
(`log_parser_and_plotter.py` and `turnAroundTimeGrapg.py`).

The embedding below translates the pure core of the two scripts:
  * `parse_log_files`   - line classification and run segmentation,
  * `adjust_cumulative_seconds` - the timeline normalizer (identical in
    both scripts),
  * the IQR outlier filter and trend-point selection of
    `plot_tat_growth_trend`,
  * the duration-grouped statistics of `export_to_excel`.
Machine integers of the scripts are modelled as `Nat` (all parsed values
come from `\d+` regex groups, hence are non-negative); the exact quartile
arithmetic (pandas `quantile`, linear interpolation) is modelled over `ℚ`.
-/

namespace LogPipeline

/-- Operation kinds recognized by the entry regex alternation
`(Insert|Update|Read)`. -/
inductive Op where
  | Insert
  | Update
  | Read
deriving DecidableEq

/-- One parsed log entry: the dict
`{'second': s, 'operation': o, 'duration': d}` built in `parse_log_files`. -/
structure Entry where
  second : Nat
  operation : Op
  duration : Nat
deriving DecidableEq

/-- An entry after `adjust_cumulative_seconds`: a copy of the source entry
with the two extra keys `'run'` and `'cumulative_second'`. -/
structure AdjEntry where
  second : Nat
  operation : Op
  duration : Nat
  run : Nat
  cumulative_second : Nat
deriving DecidableEq

/-- One input line of a log file. `text` is the raw character sequence of
the line; `entryMatch` carries the result of `entry_pattern.search` on the
line (the operation regex `\[Second (\d+)\].*?(Insert|Update|Read)
completed in (\d+) ms` is evaluated by the external `re` engine, so its
outcome is part of the line datum, while the boundary pattern - a string
literal - is modelled directly on `text`). -/
structure Line where
  text : List Char
  entryMatch : Option Entry

/-- The literal searched by `run_end_pattern`. -/
def boundaryPat : List Char := ("All Operations completed").toList

/-- Does `pat` occur at the very start of the character list? -/
def leadMatch : List Char → List Char → Bool
  | [], _ => true
  | _ :: _, [] => false
  | p :: ps, c :: cs => p == c && leadMatch ps cs

/-- Does `pat` occur anywhere in the character list?  This is
`re.search` for a literal pattern. -/
def containsPat (pat : List Char) : List Char → Bool
  | [] => leadMatch pat []
  | c :: cs => leadMatch pat (c :: cs) || containsPat pat cs

/-- `run_end_pattern.search(line)` of `parse_log_files`. -/
def isBoundaryLine (s : List Char) : Bool := containsPat boundaryPat s

/-- The loop body of `parse_log_files`: state is `(runs, current_run)`;
a boundary line flushes a non-empty `current_run`, otherwise a successful
entry match is appended to `current_run`. -/
def segmentStep (acc : List (List Entry) × List Entry) (line : Line) :
    List (List Entry) × List Entry :=
  if isBoundaryLine line.text then
    if acc.2 = [] then acc else (acc.1 ++ [acc.2], [])
  else
    match line.entryMatch with
    | some e => (acc.1, acc.2 ++ [e])
    | none => acc

/-- `parse_log_files`, applied to the concatenated line sequence of all
matched files: folds the loop body over the lines and appends the last
run if it is non-empty. -/
def parse_log_files (lines : List Line) : List (List Entry) :=
  let result := lines.foldl segmentStep ([], [])
  if result.2 = [] then result.1 else result.1 ++ [result.2]

/-- The adjusted dict appended for one entry of run number `idx` while the
running offset is `off`: `entry.copy()` plus `run` and
`cumulative_second = second + cumulative_offset`. -/
def mkAdj (idx off : Nat) (e : Entry) : AdjEntry :=
  ⟨e.second, e.operation, e.duration, idx, e.second + off⟩

/-- `max(entry['second'] for entry in run)` (Python `max` of a non-empty
list; on the empty list the code never evaluates it). -/
def runMaxSecond (run : List Entry) : Nat :=
  run.foldl (fun a e => max a e.second) 0

/-- The amount `adjust_cumulative_seconds` adds to `cumulative_offset`
after one run: `max_second + 1` for a non-empty run, nothing for an empty
run (the `if run:` guard). -/
def runOffset (run : List Entry) : Nat :=
  if run = [] then 0 else runMaxSecond run + 1

/-- The outer loop of `adjust_cumulative_seconds`, carrying the 1-based
`run_index` and the running `cumulative_offset`. -/
def adjustAux (idx off : Nat) : List (List Entry) → List AdjEntry
  | [] => []
  | run :: rest =>
      run.map (mkAdj idx off) ++ adjustAux (idx + 1) (off + runOffset run) rest

/-- `adjust_cumulative_seconds` (identical in both scripts):
`run_index` starts at 1, `cumulative_offset` at 0. -/
def adjust_cumulative_seconds (runs : List (List Entry)) : List AdjEntry :=
  adjustAux 1 0 runs

/-- The value of `cumulative_offset` when run number `j` (0-based) starts:
the sum of the offset contributions of all prior runs. -/
def prefixOffset (runs : List (List Entry)) (j : Nat) : Nat :=
  ((runs.take j).map runOffset).sum

/-- Projection dropping the two keys added by `adjust_cumulative_seconds`. -/
def toEntry (x : AdjEntry) : Entry := ⟨x.second, x.operation, x.duration⟩

/-- Insert a value into an ascending-sorted list of naturals. -/
def insertSorted (x : Nat) : List Nat → List Nat
  | [] => [x]
  | y :: ys => if x ≤ y then x :: y :: ys else y :: insertSorted x ys

/-- Ascending sort of the duration sample, as done internally by
`Series.quantile`. -/
def sortNat (xs : List Nat) : List Nat := xs.foldr insertSorted []

/-- Floor of a rational quantile position, as a natural number (the
positions used by the pipeline are non-negative). -/
def ratFloorNat (q : ℚ) : Nat := (⌊q⌋).toNat

/-- `Series.quantile(q)` with the default linear interpolation between
closest ranks: position `h = q * (n - 1)` on the ascending-sorted sample,
result `s[⌊h⌋] + (h - ⌊h⌋) * (s[⌊h⌋+1] - s[⌊h⌋])`. -/
def quantileLin (xs : List Nat) (q : ℚ) : ℚ :=
  let s := sortNat xs
  if s.length = 0 then 0
  else
    let h : ℚ := q * ((s.length : ℚ) - 1)
    let i : Nat := ratFloorNat h
    let lo : ℚ := ((s.getD i 0 : Nat) : ℚ)
    let hi : ℚ := ((s.getD (i + 1) (s.getD i 0) : Nat) : ℚ)
    lo + (h - (i : ℚ)) * (hi - lo)

/-- The per-operation body of the outlier-removal loop of
`plot_tat_growth_trend`: `Q1/Q3` of `duration`, `IQR = Q3 - Q1`, keep the
rows with `Q1 - 1.5*IQR <= duration <= Q3 + 1.5*IQR`. -/
def iqrFilter (subset : List AdjEntry) : List AdjEntry :=
  let q1 := quantileLin (subset.map fun e => e.duration) (1/4)
  let q3 := quantileLin (subset.map fun e => e.duration) (3/4)
  let iqr := q3 - q1
  subset.filter fun e =>
    decide (q1 - 3/2 * iqr ≤ (e.duration : ℚ) ∧ (e.duration : ℚ) ≤ q3 + 3/2 * iqr)

/-- First-occurrence deduplication, the order `pandas.unique` reports the
values of the `operation` column. -/
def dedupFirst : List Op → List Op
  | [] => []
  | o :: rest => o :: (dedupFirst rest).filter fun x => decide (x ≠ o)

/-- `df['operation'].unique()`. -/
def uniqueOps (entries : List AdjEntry) : List Op :=
  dedupFirst (entries.map fun e => e.operation)

/-- The whole outlier-removal loop of `plot_tat_growth_trend`: the
concatenation (`pd.concat`) of the filtered per-operation subsets, in
first-occurrence order of the operations. -/
def outlierFilter (entries : List AdjEntry) : List AdjEntry :=
  (uniqueOps entries).flatMap fun op =>
    iqrFilter (entries.filter fun e => decide (e.operation = op))

/-- The operation kinds for which the trend loop of
`plot_tat_growth_trend` fits and plots a regression line:
`filtered_df['operation'].unique()`. -/
def trendOps (entries : List AdjEntry) : List Op :=
  uniqueOps (outlierFilter entries)

/-- The `(x, y) = (cumulative_ms, duration)` sample handed to
`LinearRegression().fit` for one operation kind. -/
def fitPoints (entries : List AdjEntry) (op : Op) : List (ℚ × ℚ) :=
  ((outlierFilter entries).filter fun e => decide (e.operation = op)).map
    fun e => ((e.cumulative_second : ℚ), (e.duration : ℚ))

/-- One aggregation row of `export_to_excel`: `count`, `mean`, `min`,
`max` of the duration sample of a group. -/
structure StatRow where
  count : Nat
  mean : ℚ
  min_ms : Nat
  max_ms : Nat
deriving DecidableEq

/-- `groupby(...).agg(count, mean, min, max)` on one group: `pandas`
produces a row only for keys present in the grouped frame, hence `none`
on the empty sample. -/
def aggOf : List Nat → Option StatRow
  | [] => none
  | d :: ds =>
      some ⟨(d :: ds).length,
        (((d :: ds).map fun x => (x : ℚ)).sum) / (((d :: ds).length : Nat) : ℚ),
        ds.foldl min d, ds.foldl max d⟩

/-- The duration sample of the consolidated group of `op`: rows of
`df_nonzero = df[df['duration'] > 0]` with that operation. -/
def durationsOf (entries : List AdjEntry) (op : Op) : List Nat :=
  ((entries.filter fun e => decide (0 < e.duration)).filter
      fun e => decide (e.operation = op)).map fun e => e.duration

/-- The duration sample of the `(run, operation)` group of
`df_nonzero.groupby(['run', 'operation'])`. -/
def durationsOfRun (entries : List AdjEntry) (r : Nat) (op : Op) : List Nat :=
  ((entries.filter fun e => decide (0 < e.duration)).filter
      fun e => decide (e.run = r ∧ e.operation = op)).map fun e => e.duration

/-- The `Consolidated Summary` row of one operation kind. -/
def consolidated (entries : List AdjEntry) (op : Op) : Option StatRow :=
  aggOf (durationsOf entries op)

/-- The `Run Statistics` row of one `(run, operation)` group. -/
def run_stats (entries : List AdjEntry) (r : Nat) (op : Op) : Option StatRow :=
  aggOf (durationsOfRun entries r op)

/-! Concrete data used to exercise the pipeline on the worked examples of
the specification. -/

/-- First run of the normalization example: `[{sec:0,dur:5},{sec:2,dur:7}]`. -/
def exRunA : List Entry := [⟨0, Op.Insert, 5⟩, ⟨2, Op.Insert, 7⟩]

/-- Second run of the normalization example: `[{sec:0,dur:3}]`. -/
def exRunB : List Entry := [⟨0, Op.Insert, 3⟩]

/-- The run sequence of the normalization example. -/
def exRuns : List (List Entry) := [exRunA, exRunB]

/-- An operation entry as the regex would extract it. -/
def opLineEntry : Entry := ⟨4, Op.Read, 12⟩

/-- A line carrying the boundary literal and, coincidentally, text that
also matches the operation pattern. -/
def boundaryOpLine : Line :=
  ⟨("All Operations completed - Read completed in 12 ms").toList, some opLineEntry⟩

/-- A line that is exactly the boundary literal. -/
def plainBoundaryLine : Line := ⟨boundaryPat, none⟩

/-- The `Read` partition of the outlier-filter example, durations
`[10, 12, 11, 13, 1000]`. -/
def readEx : List AdjEntry :=
  [⟨0, Op.Read, 10, 1, 0⟩, ⟨1, Op.Read, 12, 1, 1⟩, ⟨2, Op.Read, 11, 1, 2⟩,
   ⟨3, Op.Read, 13, 1, 3⟩, ⟨4, Op.Read, 1000, 1, 4⟩]

/-- The four records of `readEx` surviving the IQR rule. -/
def readKept : List AdjEntry :=
  [⟨0, Op.Read, 10, 1, 0⟩, ⟨1, Op.Read, 12, 1, 1⟩, ⟨2, Op.Read, 11, 1, 2⟩,
   ⟨3, Op.Read, 13, 1, 3⟩]

/-- Normalized records with a zero-duration `Insert` record, durations
`[0, 10, 20]`. -/
def zeroDurEx : List AdjEntry :=
  [⟨0, Op.Insert, 0, 1, 0⟩, ⟨1, Op.Insert, 10, 1, 1⟩, ⟨2, Op.Insert, 20, 1, 2⟩]

/-- A collection whose `Read` partition has exactly one record. -/
def singleReadEx : List AdjEntry := [⟨0, Op.Read, 5, 1, 0⟩]

/-- The zero-duration record of the grouped-statistics example. -/
def insZero : AdjEntry := ⟨0, Op.Insert, 0, 1, 0⟩

/-- The positive-duration records of the grouped-statistics example. -/
def insTail : List AdjEntry := [⟨1, Op.Insert, 10, 1, 1⟩, ⟨2, Op.Insert, 20, 1, 2⟩]

/-- The grouped-statistics example `[{Insert,0},{Insert,10},{Insert,20}]`. -/
def insEx : List AdjEntry := insZero :: insTail

/-! Lemmas about the timeline normalizer. -/

lemma prefixOffset_zero (runs : List (List Entry)) : prefixOffset runs 0 = 0 := rfl

lemma prefixOffset_cons_succ (r : List Entry) (rs : List (List Entry)) (j : Nat) :
    prefixOffset (r :: rs) (j + 1) = runOffset r + prefixOffset rs j := by
  simp [prefixOffset, List.take_succ_cons]

lemma mem_adjustAux {x : AdjEntry} :
    ∀ (runs : List (List Entry)) (idx off : Nat), x ∈ adjustAux idx off runs →
      ∃ j r e, runs.get? j = some r ∧ e ∈ r ∧
        x = mkAdj (idx + j) (off + prefixOffset runs j) e := by
  intro runs
  induction runs with
  | nil => intro idx off hx; simp [adjustAux] at hx
  | cons run rest ih =>
    intro idx off hx
    rw [adjustAux] at hx
    rcases List.mem_append.mp hx with hmap | hrec
    · rcases List.mem_map.mp hmap with ⟨e, he, rfl⟩
      refine ⟨0, run, e, rfl, he, ?_⟩
      simp [prefixOffset]
    · rcases ih (idx + 1) (off + runOffset run) hrec with ⟨j, r, e, hget, he, hx⟩
      refine ⟨j + 1, r, e, hget, he, ?_⟩
      rw [hx, prefixOffset_cons_succ]
      simp only [mkAdj, AdjEntry.mk.injEq]
      refine ⟨trivial, trivial, trivial, by omega, by omega⟩

lemma le_foldl_max (l : List Entry) :
    ∀ a : Nat, a ≤ l.foldl (fun b e => max b e.second) a := by
  induction l with
  | nil => intro a; simp
  | cons e t ih =>
    intro a
    simp only [List.foldl_cons]
    exact le_trans (le_max_left a e.second) (ih _)

lemma second_le_foldl {e : Entry} :
    ∀ (r : List Entry) (a : Nat), e ∈ r →
      e.second ≤ r.foldl (fun b x => max b x.second) a := by
  intro r
  induction r with
  | nil => intro a h; simp at h
  | cons y t ih =>
    intro a h
    rcases List.mem_cons.mp h with rfl | ht
    · simp only [List.foldl_cons]
      exact le_trans (le_max_right a e.second) (le_foldl_max t _)
    · simp only [List.foldl_cons]
      exact ih _ ht

lemma second_le_runMaxSecond {e : Entry} {r : List Entry} (he : e ∈ r) :
    e.second ≤ runMaxSecond r :=
  second_le_foldl r 0 he

lemma prefixOffset_get :
    ∀ (runs : List (List Entry)) (j : Nat) (r : List Entry),
      runs.get? j = some r →
      prefixOffset runs (j + 1) = prefixOffset runs j + runOffset r := by
  intro runs
  induction runs with
  | nil => intro j r h; simp at h
  | cons hd tl ih =>
    intro j r h
    cases j with
    | zero =>
      injection h with h
      subst h
      rw [prefixOffset_cons_succ, prefixOffset_zero, prefixOffset_zero]
      omega
    | succ j =>
      have h2 : tl.get? j = some r := h
      rw [prefixOffset_cons_succ, prefixOffset_cons_succ, ih j r h2]
      omega

lemma toEntry_mkAdj (idx off : Nat) (e : Entry) : toEntry (mkAdj idx off e) = e := rfl

lemma adjustAux_map_toEntry :
    ∀ (runs : List (List Entry)) (idx off : Nat),
      (adjustAux idx off runs).map toEntry = runs.flatten := by
  intro runs
  induction runs with
  | nil => intro idx off; simp [adjustAux]
  | cons run rest ih =>
    intro idx off
    have hid : List.map (toEntry ∘ mkAdj idx off) run = run := by
      calc List.map (toEntry ∘ mkAdj idx off) run = List.map (fun e => e) run := rfl
        _ = run := List.map_id' run
    simp [adjustAux, List.map_append, List.map_map, hid, ih]

/-- C1: for runs of non-negative run-local seconds (with every run
non-empty), the cumulative seconds assigned by
`adjust_cumulative_seconds` preserve, within each run, the relative
ordering of the run-local seconds, and every record of run `i+1` gets a
cumulative second strictly greater than every record of run `i`. -/
theorem normalizer_preserves_order_and_separates_runs
    (runs : List (List Entry)) (hne : ∀ r ∈ runs, r ≠ []) :
    (∀ a ∈ adjust_cumulative_seconds runs, ∀ b ∈ adjust_cumulative_seconds runs,
        a.run = b.run →
        (a.second ≤ b.second ↔ a.cumulative_second ≤ b.cumulative_second)) ∧
    (∀ a ∈ adjust_cumulative_seconds runs, ∀ b ∈ adjust_cumulative_seconds runs,
        b.run = a.run + 1 → a.cumulative_second < b.cumulative_second) := by
  constructor
  · intro a ha b hb hab
    rcases mem_adjustAux runs 1 0 ha with ⟨ja, ra, ea, hga, hea, rfl⟩
    rcases mem_adjustAux runs 1 0 hb with ⟨jb, rb, eb, hgb, heb, rfl⟩
    have hj : ja = jb := by simp only [mkAdj] at hab; omega
    subst hj
    simp only [mkAdj]
    omega
  · intro a ha b hb hab
    rcases mem_adjustAux runs 1 0 ha with ⟨ja, ra, ea, hga, hea, rfl⟩
    rcases mem_adjustAux runs 1 0 hb with ⟨jb, rb, eb, hgb, heb, rfl⟩
    have hj : jb = ja + 1 := by simp only [mkAdj] at hab; omega
    subst hj
    have hmax : ea.second ≤ runMaxSecond ra := second_le_runMaxSecond hea
    have hra : ra ≠ [] := by intro hnil; subst hnil; simp at hea
    have hro : runOffset ra = runMaxSecond ra + 1 := by simp [runOffset, hra]
    have hpre : prefixOffset runs (ja + 1) = prefixOffset runs ja + runOffset ra :=
      prefixOffset_get runs ja ra hga
    simp only [mkAdj]
    omega

/-- Witness for C1 on the two-run example: the sole record of run 2 has a
strictly larger cumulative second than the last record of run 1. -/
theorem normalizer_preserves_order_and_separates_runs_witness :
    (⟨2, Op.Insert, 7, 1, 2⟩ : AdjEntry).cumulative_second <
      (⟨0, Op.Insert, 3, 2, 3⟩ : AdjEntry).cumulative_second :=
  (normalizer_preserves_order_and_separates_runs exRuns (by decide)).2
    ⟨2, Op.Insert, 7, 1, 2⟩ (by decide) ⟨0, Op.Insert, 3, 2, 3⟩ (by decide) (by decide)

/-- C8: every normalized record's cumulative second is its run-local
second plus the offset accumulated over all prior runs; after a non-empty
run the offset grows by `max run-local second + 1`; on the example runs
`[[{sec 0},{sec 2}], [{sec 0}]]` the cumulative seconds are `[0, 2, 3]`. -/
theorem normalizer_offset_accumulation :
    (∀ (runs : List (List Entry)), ∀ x ∈ adjust_cumulative_seconds runs,
        x.cumulative_second = x.second + prefixOffset runs (x.run - 1)) ∧
    (∀ (runs : List (List Entry)) (j : Nat) (r : List Entry),
        runs.get? j = some r → r ≠ [] →
        prefixOffset runs (j + 1) = prefixOffset runs j + (runMaxSecond r + 1)) ∧
    (adjust_cumulative_seconds exRuns).map (fun x => x.cumulative_second) = [0, 2, 3] := by
  refine ⟨?_, ?_, by decide⟩
  · intro runs x hx
    rcases mem_adjustAux runs 1 0 hx with ⟨j, r, e, hg, he, rfl⟩
    have hj : 1 + j - 1 = j := by omega
    simp only [mkAdj, hj]
    omega
  · intro runs j r hg hner
    rw [prefixOffset_get runs j r hg]
    have hro : runOffset r = runMaxSecond r + 1 := by simp [runOffset, hner]
    omega

/-- Witness for C8: on the example runs, the offset in force for run 2
equals the offset for run 1 plus `max second of run 1 + 1`. -/
theorem normalizer_offset_accumulation_witness :
    prefixOffset exRuns 1 = prefixOffset exRuns 0 + (runMaxSecond exRunA + 1) :=
  normalizer_offset_accumulation.2.1 exRuns 0 exRunA rfl (by decide)

/-- C10: the normalizer emits exactly one record per input record, in
run-concatenation order, and each output record carries the source
record's second, operation and duration unchanged (only `run` and
`cumulative_second` are added). -/
theorem normalizer_is_per_record_extension (runs : List (List Entry)) :
    (adjust_cumulative_seconds runs).map toEntry = runs.flatten ∧
    (adjust_cumulative_seconds runs).length = runs.flatten.length := by
  have h : (adjust_cumulative_seconds runs).map toEntry = runs.flatten :=
    adjustAux_map_toEntry runs 1 0
  exact ⟨h, by rw [← h, List.length_map]⟩

/-! Lemmas about the record extractor and run segmenter. -/

lemma leadMatch_self (pat post : List Char) : leadMatch pat (pat ++ post) = true := by
  induction pat with
  | nil => rfl
  | cons p ps ih => simp [leadMatch, ih]

lemma containsPat_nil (l : List Char) : containsPat [] l = true := by
  cases l <;> simp [containsPat, leadMatch]

lemma containsPat_of_parts (pat pre post : List Char) :
    containsPat pat (pre ++ (pat ++ post)) = true := by
  induction pre with
  | nil =>
    cases pat with
    | nil => exact containsPat_nil _
    | cons p ps =>
      simp only [List.nil_append, List.cons_append, containsPat]
      have h : leadMatch (p :: ps) ((p :: ps) ++ post) = true := leadMatch_self _ _
      simp only [List.cons_append] at h
      simp [h]
  | cons c cs ih => simp [containsPat, ih]

lemma segmentStep_boundary (acc : List (List Entry) × List Entry) (l : Line)
    (hb : isBoundaryLine l.text = true) :
    segmentStep acc l = if acc.2 = [] then acc else (acc.1 ++ [acc.2], []) := by
  simp [segmentStep, hb]

lemma segmentStep_fst (acc : List (List Entry) × List Entry) (l : Line) :
    (segmentStep acc l).1 = acc.1 ∨
      ((segmentStep acc l).1 = acc.1 ++ [acc.2] ∧ acc.2 ≠ []) := by
  by_cases hb : isBoundaryLine l.text
  · by_cases hc : acc.2 = [] <;> simp [segmentStep, hb, hc]
  · cases hm : l.entryMatch <;> simp [segmentStep, hb, hm]

lemma foldl_segmentStep_nonempty :
    ∀ (lines : List Line) (acc : List (List Entry) × List Entry),
      (∀ r ∈ acc.1, r ≠ []) → ∀ r ∈ (lines.foldl segmentStep acc).1, r ≠ [] := by
  intro lines
  induction lines with
  | nil => intro acc h; simpa using h
  | cons l ls ih =>
    intro acc h
    rw [List.foldl_cons]
    apply ih
    rcases segmentStep_fst acc l with h1 | ⟨h1, h2⟩
    · rw [h1]; exact h
    · rw [h1]
      intro r hr
      rcases List.mem_append.mp hr with hr | hr
      · exact h r hr
      · simp only [List.mem_cons, List.not_mem_nil, or_false] at hr
        subst hr
        exact h2

/-- C2: a line whose text contains the literal `"All Operations
completed"` anywhere is handled as a run boundary - even when the line
also carries a successful operation match, the step performs exactly the
boundary action and contributes no operation record. -/
theorem boundary_line_never_operation
    (acc : List (List Entry) × List Entry) (l : Line) (pre post : List Char)
    (hb : l.text = pre ++ (boundaryPat ++ post)) :
    segmentStep acc l = (if acc.2 = [] then acc else (acc.1 ++ [acc.2], [])) ∧
    (segmentStep acc l).1.flatten ++ (segmentStep acc l).2 =
      acc.1.flatten ++ acc.2 := by
  have hbl : isBoundaryLine l.text = true := by
    rw [hb]; exact containsPat_of_parts boundaryPat pre post
  have h1 := segmentStep_boundary acc l hbl
  refine ⟨h1, ?_⟩
  rw [h1]
  by_cases hc : acc.2 = []
  · simp [hc]
  · simp [hc, List.flatten_append]

/-- Witness for C2: a line containing both the boundary literal and
operation-like text (with a successful operation match attached) flushes
the buffer and adds no record. -/
theorem boundary_line_never_operation_witness :
    segmentStep ([], [opLineEntry]) boundaryOpLine = ([[opLineEntry]], []) ∧
    (segmentStep ([], [opLineEntry]) boundaryOpLine).1.flatten ++
        (segmentStep ([], [opLineEntry]) boundaryOpLine).2 = [opLineEntry] := by
  have h := boundary_line_never_operation ([], [opLineEntry]) boundaryOpLine []
    ((" - Read completed in 12 ms").toList) (by decide)
  simpa using h

/-- C3: `parse_log_files` emits only non-empty runs: a boundary with an
empty buffer is a no-op, a boundary with a non-empty buffer emits exactly
that buffer and resets it, and a non-empty buffer left after all input is
emitted as a final run. -/
theorem segmenter_emits_only_nonempty_runs :
    (∀ (lines : List Line), ∀ r ∈ parse_log_files lines, r ≠ []) ∧
    (∀ (runs : List (List Entry)) (l : Line), isBoundaryLine l.text = true →
        segmentStep (runs, []) l = (runs, [])) ∧
    (∀ (runs : List (List Entry)) (cur : List Entry) (l : Line),
        isBoundaryLine l.text = true → cur ≠ [] →
        segmentStep (runs, cur) l = (runs ++ [cur], [])) ∧
    (∀ (lines : List Line), (lines.foldl segmentStep ([], [])).2 ≠ [] →
        parse_log_files lines =
          (lines.foldl segmentStep ([], [])).1 ++
            [(lines.foldl segmentStep ([], [])).2]) := by
  refine ⟨?_, ?_, ?_, ?_⟩
  · intro lines r hr
    have hinv := foldl_segmentStep_nonempty lines ([], []) (by simp)
    simp only [parse_log_files] at hr
    by_cases hc : (List.foldl segmentStep ([], []) lines).2 = []
    · rw [if_pos hc] at hr
      exact hinv r hr
    · rw [if_neg hc] at hr
      rcases List.mem_append.mp hr with h | h
      · exact hinv r h
      · simp only [List.mem_cons, List.not_mem_nil, or_false] at h
        subst h
        exact hc
  · intro runs l hbl
    simp [segmentStep, hbl]
  · intro runs cur l hbl hcur
    simp [segmentStep, hbl, hcur]
  · intro lines hc
    simp only [parse_log_files]
    rw [if_neg hc]

/-- Witness for C3: a boundary line arriving on a non-empty buffer emits
exactly that buffer as one run and resets the buffer. -/
theorem segmenter_emits_only_nonempty_runs_witness :
    segmentStep ([], [opLineEntry]) plainBoundaryLine = ([[opLineEntry]], []) := by
  have h := segmenter_emits_only_nonempty_runs.2.2.1 [] [opLineEntry] plainBoundaryLine
    (by decide) (by decide)
  simpa using h

/-! Lemmas about the outlier filter and the trend stage. -/

lemma quantileLin_singleton (d : Nat) (q : ℚ) : quantileLin [d] q = (d : ℚ) := by
  simp only [quantileLin, sortNat, List.foldr_cons, List.foldr_nil, insertSorted]
  norm_num [ratFloorNat]

lemma mem_dedupFirst (o : Op) : ∀ l : List Op, o ∈ dedupFirst l ↔ o ∈ l := by
  intro l
  induction l with
  | nil => simp [dedupFirst]
  | cons a t ih =>
    simp only [dedupFirst, List.mem_cons, List.mem_filter, decide_eq_true_eq, ih]
    by_cases h : o = a <;> simp [h]

lemma nodup_dedupFirst : ∀ l : List Op, (dedupFirst l).Nodup := by
  intro l
  induction l with
  | nil => simp [dedupFirst]
  | cons a t ih =>
    simp only [dedupFirst, List.nodup_cons]
    constructor
    · intro hmem
      rcases List.mem_filter.mp hmem with ⟨_, hne⟩
      simp at hne
    · exact ih.filter _

lemma mem_uniqueOps (entries : List AdjEntry) (o : Op) :
    o ∈ uniqueOps entries ↔ ∃ e ∈ entries, e.operation = o := by
  simp [uniqueOps, mem_dedupFirst, List.mem_map]

lemma nodup_uniqueOps (entries : List AdjEntry) : (uniqueOps entries).Nodup :=
  nodup_dedupFirst _

lemma iqrFilter_sublist (s : List AdjEntry) : ∀ x ∈ iqrFilter s, x ∈ s := by
  intro x hx
  simp only [iqrFilter] at hx
  exact (List.mem_filter.mp hx).1

lemma filter_flatMap (l : List Op) (f : Op → List AdjEntry) (p : AdjEntry → Bool) :
    (l.flatMap f).filter p = l.flatMap fun a => (f a).filter p := by
  induction l with
  | nil => rfl
  | cons a t ih => simp [List.flatMap_cons, List.filter_append, ih]

lemma flatMap_nil_of (l : List Op) (f : Op → List AdjEntry)
    (h : ∀ o ∈ l, f o = []) : l.flatMap f = [] := by
  induction l with
  | nil => rfl
  | cons a t ih =>
    rw [List.flatMap_cons, h a (List.mem_cons_self a t), List.nil_append]
    exact ih fun o ho => h o (List.mem_cons_of_mem a ho)

lemma flatMap_eq_single {l : List Op} {f : Op → List AdjEntry} {op : Op}
    (hnd : l.Nodup) (hz : ∀ o ∈ l, o ≠ op → f o = []) :
    l.flatMap f = if op ∈ l then f op else [] := by
  induction l with
  | nil => simp
  | cons a t ih =>
    rcases List.nodup_cons.mp hnd with ⟨hna, hnt⟩
    by_cases hop : a = op
    · subst hop
      have ht : t.flatMap f = [] := by
        apply flatMap_nil_of
        intro o ho
        exact hz o (List.mem_cons_of_mem a ho) fun he => hna (he ▸ ho)
      rw [List.flatMap_cons, ht, List.append_nil, if_pos (List.mem_cons_self a t)]
    · have h1 : f a = [] := hz a (List.mem_cons_self a t) hop
      rw [List.flatMap_cons, h1, List.nil_append,
        ih hnt fun o ho hne => hz o (List.mem_cons_of_mem a ho) hne]
      by_cases hmem : op ∈ t
      · simp [hmem, List.mem_cons]
      · have hno : ¬ op ∈ a :: t := by
          simp only [List.mem_cons, hmem, or_false]
          intro h
          exact hop h.symm
        simp [hmem, hno]

lemma outlierFilter_restrict (entries : List AdjEntry) (op : Op) :
    (outlierFilter entries).filter (fun e => decide (e.operation = op)) =
      iqrFilter (entries.filter fun e => decide (e.operation = op)) := by
  simp only [outlierFilter]
  rw [filter_flatMap]
  have hstep : ∀ o ∈ uniqueOps entries, o ≠ op →
      (iqrFilter (entries.filter fun e => decide (e.operation = o))).filter
        (fun e => decide (e.operation = op)) = [] := by
    intro o _ hne
    rw [List.filter_eq_nil_iff]
    intro x hx
    have hxo : x.operation = o := by
      have hxs := iqrFilter_sublist _ x hx
      exact of_decide_eq_true (List.mem_filter.mp hxs).2
    simp [hxo, fun h : o = op => hne h]
  have hself :
      (iqrFilter (entries.filter fun e => decide (e.operation = op))).filter
        (fun e => decide (e.operation = op)) =
      iqrFilter (entries.filter fun e => decide (e.operation = op)) := by
    rw [List.filter_eq_self]
    intro x hx
    exact (List.mem_filter.mp (iqrFilter_sublist _ x hx)).2
  rw [flatMap_eq_single (nodup_uniqueOps entries) hstep]
  by_cases hmem : op ∈ uniqueOps entries
  · rw [if_pos hmem, hself]
  · rw [if_neg hmem]
    have hnil : (entries.filter fun e => decide (e.operation = op)) = [] := by
      rw [List.filter_eq_nil_iff]
      intro x hx hdx
      exact hmem ((mem_uniqueOps entries op).mpr ⟨x, hx, of_decide_eq_true hdx⟩)
    rw [hnil]
    rfl

/-- C9: a partition with fewer than 2 records passes the IQR filter
unchanged (its quartiles degenerate to the single duration). -/
theorem iqr_filter_keeps_small_partition (subset : List AdjEntry)
    (h : subset.length < 2) : iqrFilter subset = subset := by
  cases subset with
  | nil => rfl
  | cons e tl =>
    cases tl with
    | nil =>
      simp only [iqrFilter, List.map_cons, List.map_nil, quantileLin_singleton]
      simp only [List.filter_cons, List.filter_nil, decide_eq_true_eq]
      norm_num
    | cons e2 tl2 =>
      simp only [List.length_cons] at h
      omega

/-- Witness for C9 on a one-record partition. -/
theorem iqr_filter_keeps_small_partition_witness :
    iqrFilter singleReadEx = singleReadEx :=
  iqr_filter_keeps_small_partition singleReadEx (by decide)

lemma readEx_q1 : quantileLin [10, 12, 11, 13, 1000] (1/4) = 11 := by
  have hs : sortNat [10, 12, 11, 13, 1000] = [10, 11, 12, 13, 1000] := by decide
  simp only [quantileLin, hs]
  norm_num [ratFloorNat]

lemma readEx_q3 : quantileLin [10, 12, 11, 13, 1000] (3/4) = 13 := by
  have hs : sortNat [10, 12, 11, 13, 1000] = [10, 11, 12, 13, 1000] := by decide
  have h3 : (3 : ℤ).toNat = 3 := rfl
  simp only [quantileLin, hs]
  norm_num [ratFloorNat, h3]

/-- C4: on a single-kind partition of at least 2 records the IQR filter
retains exactly the records with
`Q1 - 1.5*IQR <= duration <= Q3 + 1.5*IQR` (quantiles by linear
interpolation); on the `Read` partition with durations
`[10, 12, 11, 13, 1000]` it removes the 1000 ms record and keeps the
other four. -/
theorem iqr_filter_retains_within_bounds :
    (∀ (subset : List AdjEntry), 2 ≤ subset.length → ∀ e : AdjEntry,
        (e ∈ iqrFilter subset ↔ e ∈ subset ∧
          quantileLin (subset.map fun x => x.duration) (1/4) -
              3/2 * (quantileLin (subset.map fun x => x.duration) (3/4) -
                quantileLin (subset.map fun x => x.duration) (1/4)) ≤
            (e.duration : ℚ) ∧
          (e.duration : ℚ) ≤ quantileLin (subset.map fun x => x.duration) (3/4) +
              3/2 * (quantileLin (subset.map fun x => x.duration) (3/4) -
                quantileLin (subset.map fun x => x.duration) (1/4)))) ∧
    outlierFilter readEx = readKept := by
  constructor
  · intro subset _ e
    simp [iqrFilter, List.mem_filter, and_assoc]
  · have hu : uniqueOps readEx = [Op.Read] := by decide
    have hfe : (readEx.filter fun e => decide (e.operation = Op.Read)) = readEx := by
      decide
    have hmap : (readEx.map fun e => e.duration) = [10, 12, 11, 13, 1000] := by decide
    simp only [outlierFilter, hu, List.flatMap_cons, List.flatMap_nil,
      List.append_nil, hfe]
    simp only [iqrFilter, hmap, readEx_q1, readEx_q3]
    simp only [readEx, readKept, List.filter_cons, List.filter_nil,
      decide_eq_true_eq]
    norm_num

/-- Witness for C4: the instantiated membership characterization for the
10 ms record of the example partition. -/
theorem iqr_filter_retains_within_bounds_witness :
    (⟨0, Op.Read, 10, 1, 0⟩ : AdjEntry) ∈ iqrFilter readEx ↔
      (⟨0, Op.Read, 10, 1, 0⟩ : AdjEntry) ∈ readEx ∧
      quantileLin (readEx.map fun x => x.duration) (1/4) -
          3/2 * (quantileLin (readEx.map fun x => x.duration) (3/4) -
            quantileLin (readEx.map fun x => x.duration) (1/4)) ≤
        (((⟨0, Op.Read, 10, 1, 0⟩ : AdjEntry)).duration : ℚ) ∧
      (((⟨0, Op.Read, 10, 1, 0⟩ : AdjEntry)).duration : ℚ) ≤
        quantileLin (readEx.map fun x => x.duration) (3/4) +
          3/2 * (quantileLin (readEx.map fun x => x.duration) (3/4) -
            quantileLin (readEx.map fun x => x.duration) (1/4)) :=
  iqr_filter_retains_within_bounds.1 readEx (by decide) ⟨0, Op.Read, 10, 1, 0⟩

lemma zeroDurEx_q1 : quantileLin [0, 10, 20] (1/4) = 5 := by
  have hs : sortNat [0, 10, 20] = [0, 10, 20] := by decide
  have h0 : (0 : ℤ).toNat = 0 := rfl
  simp only [quantileLin, hs]
  norm_num [ratFloorNat, h0]

lemma zeroDurEx_q3 : quantileLin [0, 10, 20] (3/4) = 15 := by
  have hs : sortNat [0, 10, 20] = [0, 10, 20] := by decide
  have h1 : (1 : ℤ).toNat = 1 := rfl
  simp only [quantileLin, hs]
  norm_num [ratFloorNat, h1]

lemma outlierFilter_zeroDurEx : outlierFilter zeroDurEx = zeroDurEx := by
  have hu : uniqueOps zeroDurEx = [Op.Insert] := by decide
  have hfe : (zeroDurEx.filter fun e => decide (e.operation = Op.Insert)) =
      zeroDurEx := by decide
  have hmap : (zeroDurEx.map fun e => e.duration) = [0, 10, 20] := by decide
  simp only [outlierFilter, hu, List.flatMap_cons, List.flatMap_nil,
    List.append_nil, hfe]
  simp only [iqrFilter, hmap, zeroDurEx_q1, zeroDurEx_q3]
  simp only [zeroDurEx, List.filter_cons, List.filter_nil, decide_eq_true_eq]
  norm_num

lemma fitPoints_zeroDurEx :
    fitPoints zeroDurEx Op.Insert =
      [((0:ℚ), (0:ℚ)), ((1:ℚ), (10:ℚ)), ((2:ℚ), (20:ℚ))] := by
  simp only [fitPoints, outlierFilter_zeroDurEx]
  have hfe : (zeroDurEx.filter fun e => decide (e.operation = Op.Insert)) =
      zeroDurEx := by decide
  rw [hfe]
  simp only [zeroDurEx, List.map_cons, List.map_nil]
  norm_num

/-- C5 counterexample: on `Insert` durations `[0, 10, 20]` the
zero-duration record both shifts the quartile computation and appears
among the regression points handed to the trend fit, so zero-duration
records are not excluded from the trend stage. -/
theorem trend_fit_includes_zero_duration_cex :
    ((0:ℚ), (0:ℚ)) ∈ fitPoints zeroDurEx Op.Insert ∧
    quantileLin (zeroDurEx.map fun e => e.duration) (1/4) ≠
      quantileLin [10, 20] (1/4) := by
  constructor
  · rw [fitPoints_zeroDurEx]
    simp
  · have hmap : (zeroDurEx.map fun e => e.duration) = [0, 10, 20] := by decide
    have h2 : quantileLin [10, 20] (1/4) = 25/2 := by
      have hs : sortNat [10, 20] = [10, 20] := by decide
      have h0 : (0 : ℤ).toNat = 0 := rfl
      simp only [quantileLin, hs]
      norm_num [ratFloorNat, h0]
    rw [hmap, zeroDurEx_q1, h2]
    norm_num

/-- C5 amended: the trend stage applies no positive-duration restriction:
for each operation kind the regression points are exactly the records of
that kind surviving the IQR filter - zero-duration records participate in
the quartile computation and in the fitted points like any other record,
as on the example `Insert` durations `[0, 10, 20]`. -/
theorem trend_fit_over_all_filtered_records :
    (∀ (entries : List AdjEntry) (op : Op),
        fitPoints entries op =
          (iqrFilter (entries.filter fun e => decide (e.operation = op))).map
            fun e => ((e.cumulative_second : ℚ), (e.duration : ℚ))) ∧
    fitPoints zeroDurEx Op.Insert =
      [((0:ℚ), (0:ℚ)), ((1:ℚ), (10:ℚ)), ((2:ℚ), (20:ℚ))] := by
  refine ⟨?_, fitPoints_zeroDurEx⟩
  intro entries op
  simp only [fitPoints]
  rw [outlierFilter_restrict]

lemma outlierFilter_singleReadEx : outlierFilter singleReadEx = singleReadEx := by
  have hu : uniqueOps singleReadEx = [Op.Read] := by decide
  have hf : (singleReadEx.filter fun e => decide (e.operation = Op.Read)) =
      singleReadEx := by decide
  simp only [outlierFilter, hu, List.flatMap_cons, List.flatMap_nil,
    List.append_nil, hf]
  simp only [singleReadEx, iqrFilter, List.map_cons, List.map_nil,
    quantileLin_singleton]
  simp only [List.filter_cons, List.filter_nil, decide_eq_true_eq]
  norm_num

/-- C6 counterexample: a kind whose partition has exactly one record
survives the filter with a single point, yet the trend loop still emits a
fit for it (`Read` is among the kinds the trend stage iterates over),
so kinds with fewer than 2 surviving records are not skipped. -/
theorem trend_emitted_for_single_point_kind_cex :
    Op.Read ∈ trendOps singleReadEx ∧
    ((outlierFilter singleReadEx).filter
        fun e => decide (e.operation = Op.Read)).length < 2 := by
  constructor
  · simp only [trendOps, outlierFilter_singleReadEx]
    decide
  · rw [outlierFilter_singleReadEx]
    decide

/-- C6 amended: the trend loop emits a fit exactly for the operation
kinds with at least one record surviving the outlier filter - a kind with
zero surviving records is skipped, while a kind with a single surviving
record still receives a (degenerate) fit. -/
theorem trend_emitted_iff_surviving_record (entries : List AdjEntry) (op : Op) :
    op ∈ trendOps entries ↔ ∃ e ∈ outlierFilter entries, e.operation = op := by
  simp only [trendOps]
  exact mem_uniqueOps (outlierFilter entries) op

/-! Lemmas about the grouped statistics of `export_to_excel`. -/

lemma aggOf_eq_none_iff (ds : List Nat) : aggOf ds = none ↔ ds = [] := by
  cases ds <;> simp [aggOf]

/-- C7: the grouped statistics are computed only over records with a
positive duration (prepending a zero-duration record changes no row of
either grouping), a group with no positive-duration record produces no
row, and on `[{Insert,0},{Insert,10},{Insert,20}]` the `Insert` row is
`count 2, mean 15, min 10, max 20`. -/
theorem grouped_stats_exclude_zero_durations :
    (∀ (entries : List AdjEntry) (e0 : AdjEntry) (op : Op) (r : Nat),
        e0.duration = 0 →
        consolidated (e0 :: entries) op = consolidated entries op ∧
        run_stats (e0 :: entries) r op = run_stats entries r op) ∧
    (∀ (entries : List AdjEntry) (op : Op),
        (consolidated entries op = none ↔
          ∀ e ∈ entries, e.operation = op → e.duration = 0)) ∧
    (∀ (entries : List AdjEntry) (r : Nat) (op : Op),
        (run_stats entries r op = none ↔
          ∀ e ∈ entries, e.run = r → e.operation = op → e.duration = 0)) ∧
    consolidated insEx Op.Insert = some ⟨2, 15, 10, 20⟩ := by
  refine ⟨?_, ?_, ?_, ?_⟩
  · intro entries e0 op r h0
    constructor
    · simp [consolidated, durationsOf, List.filter_cons, h0]
    · simp [run_stats, durationsOfRun, List.filter_cons, h0]
  · intro entries op
    rw [consolidated, aggOf_eq_none_iff]
    simp only [durationsOf, List.map_eq_nil_iff, List.filter_eq_nil_iff,
      List.mem_filter, decide_eq_true_eq]
    constructor
    · intro h e he hop
      by_contra hd
      exact h e ⟨he, Nat.pos_of_ne_zero hd⟩ hop
    · intro h e he hop
      have hd := h e he.1 hop
      omega
  · intro entries r op
    rw [run_stats, aggOf_eq_none_iff]
    simp only [durationsOfRun, List.map_eq_nil_iff, List.filter_eq_nil_iff,
      List.mem_filter, decide_eq_true_eq]
    constructor
    · intro h e he hr hop
      by_contra hd
      exact h e ⟨he, Nat.pos_of_ne_zero hd⟩ ⟨hr, hop⟩
    · intro h e he hro
      have hd := h e he.1 hro.1 hro.2
      omega
  · have hds : durationsOf insEx Op.Insert = [10, 20] := by decide
    rw [consolidated, hds]
    simp only [aggOf, List.map_cons, List.map_nil, List.sum_cons, List.sum_nil,
      List.length_cons, List.length_nil, List.foldl_cons, List.foldl_nil,
      Option.some.injEq, StatRow.mk.injEq]
    norm_num

/-- Witness for C7: prepending the zero-duration `Insert` record of the
example changes neither the consolidated row nor the run row. -/
theorem grouped_stats_exclude_zero_durations_witness :
    consolidated insEx Op.Insert = consolidated insTail Op.Insert ∧
    run_stats insEx 1 Op.Insert = run_stats insTail 1 Op.Insert :=
  grouped_stats_exclude_zero_durations.1 insTail insZero Op.Insert 1 rfl

end LogPipeline
